import Mathlib

/-!
Verification development for the zist history-aggregation tool.

The Go sources are embedded shallowly: Go strings become lists of
characters, Go float64 timestamps become rationals, the SQLite tables
become Lean lists with explicit key handling, and the Go map with zero
default used by the disambiguator becomes a total function.  Fallible
operations return Option.  Each definition mirrors one function of the
source tree (ParseHistoryFile, addSubsecondTimestamps, InsertCommands,
InsertCommandsBatch, SearchCommands, NormalizeQuery, SetWizardCache,
extractKeywords, parseDateTime).
-/

namespace Zist

/-- Strings of the Go source, modelled as lists of characters. -/
abbrev GoStr := List Char

/-- Whitespace recognised by Go unicode.IsSpace, restricted to the ASCII
whitespace characters (space, tab, newline, carriage return, vertical tab,
form feed). -/
def isSpaceChar (c : Char) : Bool :=
  c = ' ' || c = '\t' || c = '\n' || c = '\r' || c = '\x0b' || c = '\x0c'

/-- Go strings.TrimSpace: remove leading and trailing whitespace. -/
def trimSpace (s : GoStr) : GoStr :=
  ((s.dropWhile isSpaceChar).reverse.dropWhile isSpaceChar).reverse

/-- Go strings.ToLower on the character range relevant here (ASCII). -/
def toLowerStr (s : GoStr) : GoStr := s.map Char.toLower

/-- Go strings.SplitN(s, sep, 2) for a one-character separator, returning
some (before, after) when the separator occurs and none otherwise (the Go
call returns a one-element slice in that case, which the parser treats as
the failure branch). -/
def splitN2 (sep : Char) : GoStr → Option (GoStr × GoStr)
  | [] => none
  | c :: rest =>
    if c = sep then some ([], rest)
    else match splitN2 sep rest with
      | some (a, b) => some (c :: a, b)
      | none => none

/-- ASCII decimal digit test. -/
def isDigitChar (c : Char) : Bool := '0' ≤ c && c ≤ '9'

/-- Value of a decimal digit string. -/
def digitsToNat (s : GoStr) : Nat :=
  s.foldl (fun acc c => acc * 10 + (c.toNat - 48)) 0

/-- Go strconv.ParseInt(s, 10, 64) and strconv.Atoi: an optional sign
followed by at least one digit and nothing else, with the value required
to fit in a signed 64-bit integer. -/
def parseInt64 (s : GoStr) : Option Int :=
  let signed : Bool × GoStr :=
    match s with
    | '-' :: rest => (true, rest)
    | '+' :: rest => (false, rest)
    | _ => (false, s)
  let digits := signed.2
  if digits = [] then none
  else if digits.all isDigitChar then
    let n : Int := if signed.1 then -(digitsToNat digits : Int) else (digitsToNat digits : Int)
    if -(2 ^ 63) ≤ n ∧ n < 2 ^ 63 then some n else none
  else none

/-- One shell-history record (struct Command of the Go source).  The Go
float64 timestamp is modelled as a rational. -/
structure Command where
  source : GoStr
  timestamp : ℚ
  command : GoStr
  duration : Int
  cwd : GoStr
  exitCode : Int
deriving Repr, DecidableEq

/-- A default record, used with List.getD. -/
def cmd0 : Command := ⟨[], 0, [], 0, [], 0⟩

/-- Loop state of ParseHistoryFile: records emitted so far, the string
builder holding the open command, the last parsed timestamp and duration,
and whether a command is open. -/
structure ParseState where
  acc : List Command
  cur : GoStr
  curTs : Int
  curDur : Int
  hasCommand : Bool
deriving Repr, DecidableEq

/-- Initial parser state (Go zero values). -/
def initState : ParseState := ⟨[], [], 0, 0, false⟩

/-- The record ParseHistoryFile appends when it closes the open command. -/
def mkRecord (src : GoStr) (st : ParseState) : Command :=
  ⟨src, (st.curTs : ℚ), trimSpace st.cur, st.curDur, [], 0⟩

/-- The flush performed at the top of the header branch: if a command is
open and its accumulated text is non-empty, emit it and reset the
builder. -/
def headerFlush (src : GoStr) (st : ParseState) : ParseState :=
  if st.hasCommand ∧ st.cur ≠ [] then
    { st with acc := st.acc ++ [mkRecord src st], cur := [] }
  else st

/-- One iteration of the scanner loop of ParseHistoryFile. -/
def parseLine (src : GoStr) (st : ParseState) (line : GoStr) : ParseState :=
  if [':', ' '].isPrefixOf line then
    let st1 := headerFlush src st
    match splitN2 ';' (line.drop 2) with
    | none => st1
    | some (meta, cmdPart) =>
      match splitN2 ':' meta with
      | none => st1
      | some (tsStr, durStr) =>
        let st2 := match parseInt64 tsStr with
          | some t => { st1 with curTs := t }
          | none => st1
        let st3 := match parseInt64 durStr with
          | some d => { st2 with curDur := d }
          | none => st2
        { st3 with cur := st3.cur ++ cmdPart, hasCommand := true }
  else if st.hasCommand then
    { st with cur := st.cur ++ '\n' :: line }
  else st

/-- The flush performed after the scanner loop ends (end of file). -/
def finishParse (src : GoStr) (st : ParseState) : List Command :=
  if st.hasCommand ∧ st.cur ≠ [] then st.acc ++ [mkRecord src st] else st.acc

/-- ParseHistoryFile before the disambiguation pass: scan the lines in
order, then emit the still-open command at end of file.  File access is
stripped; the input is the list of scanned lines. -/
def rawParse (src : GoStr) (lines : List GoStr) : List Command :=
  finishParse src (lines.foldl (parseLine src) initState)

/-- Truncation toward zero, the behaviour of the Go int64(float64)
conversion used by addSubsecondTimestamps. -/
def truncQ (q : ℚ) : Int := if 0 ≤ q then ⌊q⌋ else ⌈q⌉

/-- Core loop of addSubsecondTimestamps.  The Go map from int64 to int
with its implicit zero default is modelled as a total function. -/
def addSubGo (m : Int → Nat) : List Command → List Command
  | [] => []
  | c :: rest =>
    let ts := truncQ c.timestamp
    let k := m ts
    { c with timestamp := (ts : ℚ) + (k : ℚ) * (1 / 1000) }
      :: addSubGo (fun t => if t = ts then k + 1 else m t) rest

/-- addSubsecondTimestamps of the Go source. -/
def addSubsecondTimestamps (cmds : List Command) : List Command :=
  addSubGo (fun _ => 0) cmds

/-- ParseHistoryFile: raw parse followed by the subsecond disambiguation
pass. -/
def parseHistoryFile (src : GoStr) (lines : List GoStr) : List Command :=
  addSubsecondTimestamps (rawParse src lines)

theorem addSubGo_length (l : List Command) : ∀ m, (addSubGo m l).length = l.length := by
  induction l with
  | nil => intro m; rfl
  | cons c rest ih => intro m; simp [addSubGo, ih]

theorem addSubGo_fields (l : List Command) : ∀ (m : Int → Nat) (i : Nat),
    ((addSubGo m l).getD i cmd0).source = (l.getD i cmd0).source ∧
    ((addSubGo m l).getD i cmd0).command = (l.getD i cmd0).command ∧
    ((addSubGo m l).getD i cmd0).duration = (l.getD i cmd0).duration ∧
    ((addSubGo m l).getD i cmd0).cwd = (l.getD i cmd0).cwd ∧
    ((addSubGo m l).getD i cmd0).exitCode = (l.getD i cmd0).exitCode := by
  induction l with
  | nil => intro m i; simp [addSubGo]
  | cons c rest ih =>
    intro m i
    cases i with
    | zero => simp [addSubGo]
    | succ j => simpa [addSubGo] using ih _ j

theorem addSubGo_timestamp (l : List Command) : ∀ (m : Int → Nat) (i : Nat),
    i < l.length →
    ((addSubGo m l).getD i cmd0).timestamp
      = (truncQ ((l.getD i cmd0).timestamp) : ℚ)
        + ((m (truncQ ((l.getD i cmd0).timestamp))
            + (l.take i).countP
                (fun c => decide (truncQ c.timestamp = truncQ ((l.getD i cmd0).timestamp))) : ℕ) : ℚ)
          * (1 / 1000) := by
  induction l with
  | nil => intro m i h; simp at h
  | cons c rest ih =>
    intro m i h
    cases i with
    | zero => simp [addSubGo]
    | succ j =>
      have hj : j < rest.length := by simpa using h
      have hrec := ih (fun t => if t = truncQ c.timestamp
          then m (truncQ c.timestamp) + 1 else m t) j hj
      simp only [addSubGo, List.getD_cons_succ, List.take_succ_cons, List.countP_cons]
      rw [hrec]
      by_cases hc : truncQ c.timestamp = truncQ ((rest.getD j cmd0).timestamp)
      · simp only [hc]
        simp
        ring
      · have hc2 : truncQ ((rest.getD j cmd0).timestamp) ≠ truncQ c.timestamp :=
          fun h2 => hc h2.symm
        simp only [if_neg hc2, decide_eq_true_eq, if_neg hc]
        push_cast
        ring

/-- Every header line leaves the emitted-records list exactly as the
flush at the top of the header branch leaves it: the rest of the branch
touches only the builder and the timestamp and duration registers. -/
theorem parseLine_header_acc (src : GoStr) (st : ParseState) (line : GoStr)
    (h : [':', ' '].isPrefixOf line = true) :
    (parseLine src st line).acc = (headerFlush src st).acc := by
  unfold parseLine
  rw [if_pos h]
  rcases h1 : splitN2 ';' (line.drop 2) with _ | ⟨meta, cmdPart⟩
  · simp [h1]
  · simp only [h1]
    rcases h2 : splitN2 ':' meta with _ | ⟨tsStr, durStr⟩
    · simp [h2]
    · simp only [h2]
      rcases h3 : parseInt64 tsStr with _ | t <;>
        rcases h4 : parseInt64 durStr with _ | d <;> simp [h3, h4]

/-- Each scanner step either keeps the emitted-records list or appends
the record the flush emits. -/
theorem parseLine_acc_cases (src : GoStr) (st : ParseState) (line : GoStr) :
    (parseLine src st line).acc = st.acc ∨
    (parseLine src st line).acc = st.acc ++ [mkRecord src st] := by
  by_cases h : [':', ' '].isPrefixOf line = true
  · rw [parseLine_header_acc src st line h]
    unfold headerFlush
    split
    · right; rfl
    · left; rfl
  · unfold parseLine
    rw [if_neg h]
    split
    · left; rfl
    · left; rfl

theorem rawParse_integral (src : GoStr) (lines : List GoStr) :
    ∀ c ∈ rawParse src lines, ∃ n : ℤ, c.timestamp = (n : ℚ) := by
  have main : ∀ (ls : List GoStr) (st : ParseState),
      (∀ c ∈ st.acc, ∃ n : ℤ, c.timestamp = (n : ℚ)) →
      ∀ c ∈ (ls.foldl (parseLine src) st).acc, ∃ n : ℤ, c.timestamp = (n : ℚ) := by
    intro ls
    induction ls with
    | nil => intro st hst; exact hst
    | cons l rest ih =>
      intro st hst
      refine ih (parseLine src st l) ?_
      intro c hc
      rcases parseLine_acc_cases src st l with he | he <;> rw [he] at hc
      · exact hst c hc
      · simp only [List.mem_append, List.mem_singleton] at hc
        rcases hc with hc | hc
        · exact hst c hc
        · exact ⟨st.curTs, by rw [hc]; rfl⟩
  intro c hc
  unfold rawParse finishParse at hc
  have hstep := main lines initState (by intro c hc; simp [initState] at hc)
  split at hc
  · simp only [List.mem_append, List.mem_singleton] at hc
    rcases hc with hc | hc
    · exact hstep c hc
    · exact ⟨(lines.foldl (parseLine src) initState).curTs, by rw [hc]; rfl⟩
  · exact hstep c hc

theorem truncQ_intCast (n : ℤ) : truncQ ((n : ℤ) : ℚ) = n := by
  unfold truncQ
  split <;> simp

theorem truncQ_nonneg {q : ℚ} (h : 0 ≤ q) : truncQ q = ⌊q⌋ := if_pos h

/-- Example source path used by concrete instances below. -/
def srcEx : GoStr := "/home/u/.histories/h1/zsh_history".data

/-- The three-way same-second ingestion scenario of the spec. -/
def linesEx : List GoStr :=
  [": 1704384000:5;ls -la".data, ": 1704384000:2;git status".data,
   ": 1704384000:1;docker ps".data]

/-- C2: for every parsed history file, each emitted record's final
timestamp equals seconds + k ⋅ 0.001 where seconds is the record's parsed
integer second (the raw-parse timestamp, an integer cast) and k is the
zero-based count of earlier records of the file sharing that integer
second, in file order. -/
theorem c2_subsecond_assignment (src : GoStr) (lines : List GoStr) (i : ℕ)
    (h : i < (parseHistoryFile src lines).length) :
    (∃ n : ℤ, ((rawParse src lines).getD i cmd0).timestamp = (n : ℚ)) ∧
    ((parseHistoryFile src lines).getD i cmd0).timestamp
      = ((rawParse src lines).getD i cmd0).timestamp
        + (((rawParse src lines).take i).countP
            (fun c => decide (c.timestamp = ((rawParse src lines).getD i cmd0).timestamp)) : ℚ)
          * (1 / 1000) := by
  have hi : i < (rawParse src lines).length := by
    rw [← addSubGo_length (rawParse src lines) (fun _ => 0)]
    exact h
  have hmem : (rawParse src lines).getD i cmd0 ∈ rawParse src lines := by
    rw [List.getD_eq_getElem _ _ hi]
    exact List.getElem_mem hi
  obtain ⟨n, hn⟩ := rawParse_integral src lines _ hmem
  refine ⟨⟨n, hn⟩, ?_⟩
  have hts := addSubGo_timestamp (rawParse src lines) (fun _ => 0) i hi
  have hcount : ((rawParse src lines).take i).countP
      (fun c => decide (truncQ c.timestamp = truncQ (((rawParse src lines).getD i cmd0).timestamp)))
      = ((rawParse src lines).take i).countP
      (fun c => decide (c.timestamp = ((rawParse src lines).getD i cmd0).timestamp)) := by
    refine List.countP_congr ?_
    intro c hcmem
    obtain ⟨k, hk⟩ := rawParse_integral src lines c (List.take_subset _ _ hcmem)
    rw [hk, hn, truncQ_intCast, truncQ_intCast]
    simp
  show ((addSubGo (fun _ => 0) (rawParse src lines)).getD i cmd0).timestamp = _
  rw [hts, hcount, hn, truncQ_intCast]
  simp

/-- C2 witness: the third record of the spec scenario, with its two
equal-second predecessors counted in file order. -/
theorem c2_subsecond_witness :
    (∃ n : ℤ, ((rawParse srcEx linesEx).getD 2 cmd0).timestamp = (n : ℚ)) ∧
    ((parseHistoryFile srcEx linesEx).getD 2 cmd0).timestamp
      = ((rawParse srcEx linesEx).getD 2 cmd0).timestamp
        + (((rawParse srcEx linesEx).take 2).countP
            (fun c => decide (c.timestamp = ((rawParse srcEx linesEx).getD 2 cmd0).timestamp)) : ℚ)
          * (1 / 1000) :=
  c2_subsecond_assignment srcEx linesEx 2 (by decide)

/-- C9 (amended): the disambiguation pass preserves the number and order
of records and every field except the timestamp; it preserves the integer
part of the timestamp whenever the timestamp is nonnegative and fewer
than 1000 earlier records of the file share its integer second (the
documented 1000-collision design limit). -/
theorem c9_disambiguation_frame (cmds : List Command) (i : ℕ) :
    (addSubsecondTimestamps cmds).length = cmds.length ∧
    ((addSubsecondTimestamps cmds).getD i cmd0).source = (cmds.getD i cmd0).source ∧
    ((addSubsecondTimestamps cmds).getD i cmd0).command = (cmds.getD i cmd0).command ∧
    ((addSubsecondTimestamps cmds).getD i cmd0).duration = (cmds.getD i cmd0).duration ∧
    ((addSubsecondTimestamps cmds).getD i cmd0).cwd = (cmds.getD i cmd0).cwd ∧
    ((addSubsecondTimestamps cmds).getD i cmd0).exitCode = (cmds.getD i cmd0).exitCode ∧
    (i < cmds.length → 0 ≤ (cmds.getD i cmd0).timestamp →
      (cmds.take i).countP
          (fun c => decide (truncQ c.timestamp = truncQ ((cmds.getD i cmd0).timestamp))) < 1000 →
      truncQ (((addSubsecondTimestamps cmds).getD i cmd0).timestamp)
        = truncQ ((cmds.getD i cmd0).timestamp)) := by
  obtain ⟨hs, hc, hd, hw, he⟩ := addSubGo_fields cmds (fun _ => 0) i
  refine ⟨addSubGo_length cmds _, hs, hc, hd, hw, he, ?_⟩
  intro hi h0 hcnt
  show truncQ (((addSubGo (fun _ => 0) cmds).getD i cmd0).timestamp) = _
  rw [addSubGo_timestamp cmds (fun _ => 0) i hi]
  set n := truncQ ((cmds.getD i cmd0).timestamp) with hn
  set k := (cmds.take i).countP
      (fun c => decide (truncQ c.timestamp = truncQ ((cmds.getD i cmd0).timestamp))) with hk
  have hn0 : (0 : ℤ) ≤ n := by
    rw [hn, truncQ_nonneg h0]
    exact Int.floor_nonneg.mpr h0
  have hfrac0 : (0 : ℚ) ≤ ((0 + k : ℕ) : ℚ) * (1 / 1000) := by positivity
  have hfrac1 : ((0 + k : ℕ) : ℚ) * (1 / 1000) < 1 := by
    have : ((0 + k : ℕ) : ℚ) < 1000 := by
      have := hcnt
      push_cast
      exact_mod_cast by omega
    linarith
  rw [truncQ_nonneg (by positivity)]
  rw [Int.floor_int_add]
  have : ⌊((0 + k : ℕ) : ℚ) * (1 / 1000)⌋ = 0 :=
    Int.floor_eq_zero_iff.mpr (Set.mem_Ico.mpr ⟨hfrac0, hfrac1⟩)
  rw [this, add_zero]

/-- C9 witness: a two-record file with distinct seconds keeps both
integer parts and all other fields. -/
theorem c9_disambiguation_witness :
    (addSubsecondTimestamps [⟨srcEx, 7, "ls".data, 0, [], 0⟩]).length
        = [(⟨srcEx, 7, "ls".data, 0, [], 0⟩ : Command)].length ∧
    ((addSubsecondTimestamps [⟨srcEx, 7, "ls".data, 0, [], 0⟩]).getD 0 cmd0).source
        = (([⟨srcEx, 7, "ls".data, 0, [], 0⟩] : List Command).getD 0 cmd0).source ∧
    ((addSubsecondTimestamps [⟨srcEx, 7, "ls".data, 0, [], 0⟩]).getD 0 cmd0).command
        = (([⟨srcEx, 7, "ls".data, 0, [], 0⟩] : List Command).getD 0 cmd0).command ∧
    ((addSubsecondTimestamps [⟨srcEx, 7, "ls".data, 0, [], 0⟩]).getD 0 cmd0).duration
        = (([⟨srcEx, 7, "ls".data, 0, [], 0⟩] : List Command).getD 0 cmd0).duration ∧
    ((addSubsecondTimestamps [⟨srcEx, 7, "ls".data, 0, [], 0⟩]).getD 0 cmd0).cwd
        = (([⟨srcEx, 7, "ls".data, 0, [], 0⟩] : List Command).getD 0 cmd0).cwd ∧
    ((addSubsecondTimestamps [⟨srcEx, 7, "ls".data, 0, [], 0⟩]).getD 0 cmd0).exitCode
        = (([⟨srcEx, 7, "ls".data, 0, [], 0⟩] : List Command).getD 0 cmd0).exitCode ∧
    truncQ (((addSubsecondTimestamps [⟨srcEx, 7, "ls".data, 0, [], 0⟩]).getD 0 cmd0).timestamp)
        = truncQ ((([⟨srcEx, 7, "ls".data, 0, [], 0⟩] : List Command).getD 0 cmd0).timestamp) := by
  obtain ⟨h1, h2, h3, h4, h5, h6, h7⟩ :=
    c9_disambiguation_frame [⟨srcEx, 7, "ls".data, 0, [], 0⟩] 0
  exact ⟨h1, h2, h3, h4, h5, h6,
    h7 (by decide) (by decide) (by decide)⟩

/-- A record whose integer second is 5, used to exhibit the collision
limit of the disambiguation pass. -/
def cEx : Command := ⟨"/f".data, 5, "x".data, 0, [], 0⟩

set_option maxRecDepth 100000 in
/-- C9 counterexample: in a file with 1001 records in the same integer
second, the 1001st record's integer part moves to the next second, so the
pass does not always leave the integer part unchanged. -/
theorem c9_disambiguation_cex :
    truncQ (((addSubsecondTimestamps (List.replicate 1001 cEx)).getD 1000 cmd0).timestamp)
      ≠ truncQ ((List.replicate 1001 cEx).getD 1000 cmd0).timestamp := by
  have hlen : (1000 : ℕ) < (List.replicate 1001 cEx).length := by
    simp only [List.length_replicate]
    omega
  have h := addSubGo_timestamp (List.replicate 1001 cEx) (fun _ => 0) 1000 hlen
  have hget : (List.replicate 1001 cEx).getD 1000 cmd0 = cEx := by
    rw [List.getD_eq_getElem _ _ hlen, List.getElem_replicate]
  rw [hget] at h ⊢
  have htake : (List.replicate 1001 cEx).take 1000 = List.replicate 1000 cEx := by
    rw [List.take_replicate]
    norm_num
  rw [htake, List.countP_replicate, if_pos (by simp)] at h
  show truncQ (((addSubGo (fun _ => 0) (List.replicate 1001 cEx)).getD 1000 cmd0).timestamp) ≠ _
  rw [h]
  have h5 : truncQ cEx.timestamp = 5 := by
    show truncQ (5 : ℚ) = 5
    rw [truncQ_nonneg (by norm_num)]
    norm_num
  rw [h5]
  have h6 : ((5 : ℤ) : ℚ) + ((0 + 1000 : ℕ) : ℚ) * (1 / 1000) = (6 : ℚ) := by
    push_cast
    norm_num
  rw [h6]
  have h7 : truncQ (6 : ℚ) = 6 := by
    rw [truncQ_nonneg (by norm_num)]
    norm_num
  rw [h7]
  decide

/-- Splitting at the first occurrence of the separator. -/
theorem splitN2_sep (c : Char) (a b : GoStr) (ha : c ∉ a) :
    splitN2 c (a ++ c :: b) = some (a, b) := by
  induction a with
  | nil => simp [splitN2]
  | cons x xs ih =>
    have hx : ¬ x = c := fun he => ha (by rw [he]; exact List.mem_cons_self c xs)
    have hto : c ∉ xs := fun hm => ha (List.mem_cons_of_mem _ hm)
    simp [splitN2, hx, ih hto]

/-- A header line whose interior has no semicolon is dropped right after
the flush. -/
theorem parseLine_noSemi (src : GoStr) (st : ParseState) (line : GoStr)
    (h : [':', ' '].isPrefixOf line = true)
    (h1 : splitN2 ';' (line.drop 2) = none) :
    parseLine src st line = headerFlush src st := by
  unfold parseLine
  rw [if_pos h]
  simp [h1]

/-- A header line whose metadata has no colon is dropped right after the
flush. -/
theorem parseLine_noColon (src : GoStr) (st : ParseState) (line : GoStr)
    (meta cmdPart : GoStr)
    (h : [':', ' '].isPrefixOf line = true)
    (h1 : splitN2 ';' (line.drop 2) = some (meta, cmdPart))
    (h2 : splitN2 ':' meta = none) :
    parseLine src st line = headerFlush src st := by
  unfold parseLine
  rw [if_pos h]
  simp [h1, h2]

/-- A header line with both separators always opens a command whose text
extends the flushed builder by the part after the semicolon, regardless
of whether the numeric fields parse. -/
theorem parseLine_header_open (src : GoStr) (st : ParseState) (line : GoStr)
    (meta cmdPart tsStr durStr : GoStr)
    (h : [':', ' '].isPrefixOf line = true)
    (h1 : splitN2 ';' (line.drop 2) = some (meta, cmdPart))
    (h2 : splitN2 ':' meta = some (tsStr, durStr)) :
    (parseLine src st line).hasCommand = true ∧
    (parseLine src st line).cur = (headerFlush src st).cur ++ cmdPart ∧
    (parseLine src st line).acc = (headerFlush src st).acc := by
  unfold parseLine
  rw [if_pos h]
  rcases h3 : parseInt64 tsStr with _ | t <;>
    rcases h4 : parseInt64 durStr with _ | d <;>
    simp [h1, h2, h3, h4]

/-- C3 (amended): a header-prefixed line whose interior lacks the
semicolon separator, or whose metadata lacks the colon separator, first
closes and emits the currently open command (if one is open with
non-empty text) and is then itself silently dropped whether or not a
command was open; it is never appended as continuation text.  A
header-prefixed line with both separators present opens a command even if
its numeric fields do not parse (fields that fail to parse retain the
previous values).  Parsing is a total function, so no malformed line
fails the file. -/
theorem c3_malformed_header (src : GoStr) (st : ParseState) (line : GoStr)
    (h : [':', ' '].isPrefixOf line = true) :
    (splitN2 ';' (line.drop 2) = none → parseLine src st line = headerFlush src st) ∧
    (∀ meta cmdPart, splitN2 ';' (line.drop 2) = some (meta, cmdPart) →
      splitN2 ':' meta = none → parseLine src st line = headerFlush src st) ∧
    (∀ meta cmdPart tsStr durStr,
      splitN2 ';' (line.drop 2) = some (meta, cmdPart) →
      splitN2 ':' meta = some (tsStr, durStr) →
      (parseLine src st line).hasCommand = true ∧
      (parseLine src st line).cur = (headerFlush src st).cur ++ cmdPart ∧
      (parseLine src st line).acc = (headerFlush src st).acc) :=
  ⟨fun h1 => parseLine_noSemi src st line h h1,
   fun meta cmdPart h1 h2 => parseLine_noColon src st line meta cmdPart h h1 h2,
   fun meta cmdPart tsStr durStr h1 h2 =>
     parseLine_header_open src st line meta cmdPart tsStr durStr h h1 h2⟩

/-- C3 witness: with a command open, the malformed line ": bad" leaves
the parser exactly in the flushed state. -/
theorem c3_malformed_header_witness :
    parseLine [] ⟨[], "ls".data, 100, 1, true⟩ ": bad".data
      = headerFlush [] ⟨[], "ls".data, 100, 1, true⟩ :=
  (c3_malformed_header [] ⟨[], "ls".data, 100, 1, true⟩ ": bad".data (by decide)).1
    (by decide)

/-- C3 counterexample: with the command "ls" open, the malformed header
line ": bad" is not appended as continuation text; the file parses to the
records "ls" and "echo hi", and no record carries the text the claim
predicts ("ls", newline, ": bad", newline, "echo hi"). -/
theorem c3_malformed_header_cex :
    (parseHistoryFile "/f".data
        [": 100:1;ls".data, ": bad".data, "echo hi".data]).map Command.command
      = ["ls".data, "echo hi".data] ∧
    "ls\n: bad\necho hi".data ∉
      (parseHistoryFile "/f".data
        [": 100:1;ls".data, ": bad".data, "echo hi".data]).map Command.command := by
  constructor
  · decide
  · decide

/-- C10: a well-formed header line whose command portion after the
semicolon is empty leaves the parser with an open command and an empty
builder; a directly following header line emits no record for it, and end
of file emits no record for it, so no empty-text record is produced.  The
state hypothesis (an absent command has an empty builder) holds for every
state the scanner reaches. -/
theorem c10_empty_command_header (src : GoStr) (st : ParseState)
    (tsStr durStr : GoStr)
    (hinv : st.hasCommand = false → st.cur = [])
    (hts : ';' ∉ tsStr) (hds : ';' ∉ durStr) (htc : ':' ∉ tsStr) :
    (parseLine src st (':' :: ' ' :: (tsStr ++ ':' :: durStr ++ [';']))).cur = [] ∧
    (parseLine src st (':' :: ' ' :: (tsStr ++ ':' :: durStr ++ [';']))).hasCommand = true ∧
    (∀ line2, [':', ' '].isPrefixOf line2 = true →
      (parseLine src
          (parseLine src st (':' :: ' ' :: (tsStr ++ ':' :: durStr ++ [';']))) line2).acc
        = (parseLine src st (':' :: ' ' :: (tsStr ++ ':' :: durStr ++ [';']))).acc) ∧
    finishParse src (parseLine src st (':' :: ' ' :: (tsStr ++ ':' :: durStr ++ [';'])))
      = (parseLine src st (':' :: ' ' :: (tsStr ++ ':' :: durStr ++ [';']))).acc := by
  have hpre : [':', ' '].isPrefixOf
      (':' :: ' ' :: (tsStr ++ ':' :: durStr ++ [';'])) = true := by
    simp [List.isPrefixOf]
  have hdrop : (':' :: ' ' :: (tsStr ++ ':' :: durStr ++ [';'])).drop 2
      = (tsStr ++ ':' :: durStr) ++ ';' :: [] := by
    simp
  have hnosemi : ';' ∉ tsStr ++ ':' :: durStr := by
    simp only [List.mem_append, List.mem_cons]
    rintro (hc | hc | hc)
    · exact hts hc
    · exact absurd hc (by decide)
    · exact hds hc
  have h1 : splitN2 ';' ((':' :: ' ' :: (tsStr ++ ':' :: durStr ++ [';'])).drop 2)
      = some (tsStr ++ ':' :: durStr, []) := by
    rw [hdrop]
    exact splitN2_sep ';' (tsStr ++ ':' :: durStr) [] hnosemi
  have h2 : splitN2 ':' (tsStr ++ ':' :: durStr) = some (tsStr, durStr) :=
    splitN2_sep ':' tsStr durStr htc
  obtain ⟨hcmd, hcur, _⟩ := parseLine_header_open src st
    (':' :: ' ' :: (tsStr ++ ':' :: durStr ++ [';'])) (tsStr ++ ':' :: durStr) []
    tsStr durStr hpre h1 h2
  have hflushcur : (headerFlush src st).cur = [] := by
    unfold headerFlush
    split
    · rfl
    · rename_i hneg
      by_cases hb : st.hasCommand = true
      · have : ¬ st.cur ≠ [] := fun hne => hneg ⟨hb, hne⟩
        simpa using this
      · exact hinv (by simpa using hb)
  have hcur0 : (parseLine src st
      (':' :: ' ' :: (tsStr ++ ':' :: durStr ++ [';']))).cur = [] := by
    rw [hcur, hflushcur]
    rfl
  refine ⟨hcur0, hcmd, ?_, ?_⟩
  · intro line2 hl2
    rw [parseLine_header_acc src _ line2 hl2]
    unfold headerFlush
    rw [if_neg ?_]
    rintro ⟨-, hne⟩
    exact hne hcur0
  · unfold finishParse
    rw [if_neg ?_]
    rintro ⟨-, hne⟩
    exact hne hcur0

/-- C10 witness: the empty-command header ": 100:1;" followed by a
well-formed header and by end of file produces no record. -/
theorem c10_empty_command_witness :
    (parseLine [] initState ": 100:1;".data).cur = [] ∧
    (parseLine [] initState ": 100:1;".data).hasCommand = true ∧
    (parseLine [] (parseLine [] initState ": 100:1;".data) ": 200:0;ls".data).acc
      = (parseLine [] initState ": 100:1;".data).acc ∧
    finishParse [] (parseLine [] initState ": 100:1;".data)
      = (parseLine [] initState ": 100:1;".data).acc := by
  obtain ⟨w1, w2, w3, w4⟩ := c10_empty_command_header [] initState "100".data "1".data
    (by decide) (by decide) (by decide) (by decide)
  exact ⟨w1, w2, w3 ": 200:0;ls".data (by decide), w4⟩

/-- Presence of the (source, timestamp) primary key in the commands
table: the condition under which INSERT OR IGNORE affects no row. -/
def keyPresent (db : List Command) (c : Command) : Bool :=
  db.any (fun r => decide (r.source = c.source ∧ r.timestamp = c.timestamp))

/-- One INSERT OR IGNORE statement: append when the key is absent; the
second component is the rows-affected count. -/
def insertOne (db : List Command) (c : Command) : List Command × Nat :=
  if keyPresent db c then (db, 0) else (db ++ [c], 1)

/-- Table state after the statement loop of InsertCommands. -/
def insertAll (db : List Command) : List Command → List Command
  | [] => db
  | c :: rest => insertAll (insertOne db c).1 rest

/-- Inserted counter of the statement loop of InsertCommands. -/
def insertedCount (db : List Command) : List Command → Nat
  | [] => 0
  | c :: rest => (insertOne db c).2 + insertedCount (insertOne db c).1 rest

/-- InsertCommands: new table state, inserted count, and skipped count
(the source returns len(commands) - inserted). -/
def insertCommands (db : List Command) (cmds : List Command) :
    List Command × Nat × Nat :=
  (insertAll db cmds, insertedCount db cmds, cmds.length - insertedCount db cmds)

/-- The sub-batches visited by the loop of InsertCommandsBatch (the index
steps by batchSize), with explicit fuel equal to the list length. -/
def chunksGo : Nat → Nat → List Command → List (List Command)
  | 0, _, _ => []
  | _, _, [] => []
  | f + 1, n, l => l.take n :: chunksGo f n (l.drop n)

/-- InsertCommandsBatch of the source: an empty input returns zero
counts, a nonpositive batch size defaults to 100, and the sub-batch
results are accumulated in order. -/
def insertCommandsBatch (db : List Command) (cmds : List Command)
    (batchSize : Int) : List Command × Nat × Nat :=
  if cmds = [] then (db, 0, 0)
  else
    (chunksGo cmds.length (if batchSize ≤ 0 then 100 else batchSize.toNat) cmds).foldl
      (fun p batch =>
        ((insertCommands p.1 batch).1,
          p.2.1 + (insertCommands p.1 batch).2.1,
          p.2.2 + (insertCommands p.1 batch).2.2)) (db, 0, 0)

theorem insertAll_append (l1 l2 : List Command) : ∀ db : List Command,
    insertAll db (l1 ++ l2) = insertAll (insertAll db l1) l2 := by
  induction l1 with
  | nil => intro db; rfl
  | cons c rest ih => intro db; exact ih ((insertOne db c).1)

theorem insertedCount_append (l1 l2 : List Command) : ∀ db : List Command,
    insertedCount db (l1 ++ l2)
      = insertedCount db l1 + insertedCount (insertAll db l1) l2 := by
  induction l1 with
  | nil => intro db; simp [insertedCount, insertAll]
  | cons c rest ih =>
    intro db
    show (insertOne db c).2 + insertedCount (insertOne db c).1 (rest ++ l2) = _
    rw [ih ((insertOne db c).1)]
    simp [insertedCount, insertAll]
    omega

theorem insertedCount_le (l : List Command) : ∀ db : List Command,
    insertedCount db l ≤ l.length := by
  induction l with
  | nil => intro db; simp [insertedCount]
  | cons c rest ih =>
    intro db
    have h1 : (insertOne db c).2 ≤ 1 := by
      unfold insertOne
      split <;> simp
    have h2 := ih ((insertOne db c).1)
    show (insertOne db c).2 + insertedCount (insertOne db c).1 rest ≤ rest.length + 1
    omega

theorem keyPresent_append (db1 db2 : List Command) (c : Command) :
    keyPresent (db1 ++ db2) c = (keyPresent db1 c || keyPresent db2 c) := by
  simp [keyPresent]

theorem keyPresent_of_mem {db : List Command} {c : Command} (h : c ∈ db) :
    keyPresent db c = true := by
  unfold keyPresent
  rw [List.any_eq_true]
  exact ⟨c, h, by simp⟩

theorem insert_fresh (cmds : List Command) : ∀ db : List Command,
    (∀ c ∈ cmds, keyPresent db c = false) →
    (cmds.map fun c => (c.source, c.timestamp)).Nodup →
    insertAll db cmds = db ++ cmds ∧ insertedCount db cmds = cmds.length := by
  induction cmds with
  | nil => intro db _ _; exact ⟨by simp [insertAll], rfl⟩
  | cons c rest ih =>
    intro db hfresh hnodup
    have hc : keyPresent db c = false := hfresh c (List.mem_cons_self c rest)
    have hone : insertOne db c = (db ++ [c], 1) := by
      unfold insertOne
      rw [hc]
      simp
    have hkey : ∀ x ∈ rest, ¬ (c.source = x.source ∧ c.timestamp = x.timestamp) := by
      intro x hx hxy
      have hnd := (List.nodup_cons.mp hnodup).1
      refine hnd ?_
      rw [List.mem_map]
      exact ⟨x, hx, by rw [← hxy.1, ← hxy.2]⟩
    have hfresh2 : ∀ x ∈ rest, keyPresent (db ++ [c]) x = false := by
      intro x hx
      rw [keyPresent_append]
      have h1 : keyPresent db x = false := hfresh x (List.mem_cons_of_mem _ hx)
      have h2 : keyPresent [c] x = false := by
        unfold keyPresent
        simp only [List.any_cons, List.any_nil, Bool.or_false]
        exact decide_eq_false (hkey x hx)
      rw [h1, h2]
      rfl
    obtain ⟨ha, hn⟩ := ih (db ++ [c]) hfresh2 (List.nodup_cons.mp hnodup).2
    constructor
    · show insertAll (insertOne db c).1 rest = db ++ c :: rest
      rw [hone, ha]
      simp
    · show (insertOne db c).2 + insertedCount (insertOne db c).1 rest = rest.length + 1
      rw [hone, hn]
      omega

theorem insert_present (cmds : List Command) : ∀ db : List Command,
    (∀ c ∈ cmds, keyPresent db c = true) →
    insertAll db cmds = db ∧ insertedCount db cmds = 0 := by
  induction cmds with
  | nil => intro db _; exact ⟨rfl, rfl⟩
  | cons c rest ih =>
    intro db hpres
    have hone : insertOne db c = (db, 0) := by
      unfold insertOne
      rw [hpres c (List.mem_cons_self c rest)]
      simp
    obtain ⟨ha, hn⟩ := ih db (fun x hx => hpres x (List.mem_cons_of_mem _ hx))
    constructor
    · show insertAll (insertOne db c).1 rest = db
      rw [hone]
      exact ha
    · show (insertOne db c).2 + insertedCount (insertOne db c).1 rest = 0
      rw [hone, hn]

theorem chunksGo_join (f : Nat) : ∀ (n : Nat) (l : List Command),
    1 ≤ n → l.length ≤ f → (chunksGo f n l).flatten = l := by
  induction f with
  | zero =>
    intro n l hn hf
    have : l = [] := List.eq_nil_of_length_eq_zero (Nat.le_zero.mp hf)
    rw [this]
    rfl
  | succ f ih =>
    intro n l hn hf
    cases l with
    | nil => rfl
    | cons c rest =>
      show ((c :: rest).take n :: chunksGo f n ((c :: rest).drop n)).flatten = c :: rest
      have hlen : ((c :: rest).drop n).length ≤ f := by
        rw [List.length_drop]
        simp only [List.length_cons] at hf ⊢
        omega
      rw [List.flatten_cons, ih n ((c :: rest).drop n) hn hlen, List.take_append_drop]

theorem batchFold (chunks : List (List Command)) : ∀ (db : List Command) (a b : Nat),
    chunks.foldl
      (fun p batch =>
        ((insertCommands p.1 batch).1,
          p.2.1 + (insertCommands p.1 batch).2.1,
          p.2.2 + (insertCommands p.1 batch).2.2)) (db, a, b)
      = (insertAll db chunks.flatten,
         a + insertedCount db chunks.flatten,
         b + (chunks.flatten.length - insertedCount db chunks.flatten)) := by
  induction chunks with
  | nil => intro db a b; simp [insertAll, insertedCount]
  | cons ch chs ih =>
    intro db a b
    simp only [List.foldl_cons]
    rw [ih]
    simp only [insertCommands, List.flatten_cons, List.length_append,
      insertAll_append, insertedCount_append, Prod.mk.injEq]
    have h1 := insertedCount_le ch db
    have h2 := insertedCount_le chs.flatten (insertAll db ch)
    refine ⟨trivial, by omega, by omega⟩

theorem insertCommandsBatch_eq (db cmds : List Command) (batchSize : Int) :
    insertCommandsBatch db cmds batchSize = insertCommands db cmds := by
  unfold insertCommandsBatch
  split
  · rename_i hnil
    rw [hnil]
    rfl
  · rw [batchFold]
    have hbs : 1 ≤ (if batchSize ≤ 0 then 100 else batchSize.toNat) := by
      split
      · omega
      · omega
    rw [chunksGo_join cmds.length _ cmds hbs (le_refl _)]
    simp [insertCommands]

/-- C4: inserting a batch of fresh records with pairwise-distinct keys
reports (inserted = N, skipped = 0); inserting the same batch again
reports (inserted = 0, skipped = N) and leaves the table unchanged. -/
theorem c4_batch_idempotent (db cmds : List Command) (batchSize : Int)
    (hnodup : (cmds.map fun c => (c.source, c.timestamp)).Nodup)
    (hfresh : ∀ c ∈ cmds, keyPresent db c = false) :
    (insertCommandsBatch db cmds batchSize).2.1 = cmds.length ∧
    (insertCommandsBatch db cmds batchSize).2.2 = 0 ∧
    (insertCommandsBatch
        (insertCommandsBatch db cmds batchSize).1 cmds batchSize).2.1 = 0 ∧
    (insertCommandsBatch
        (insertCommandsBatch db cmds batchSize).1 cmds batchSize).2.2 = cmds.length ∧
    (insertCommandsBatch
        (insertCommandsBatch db cmds batchSize).1 cmds batchSize).1
      = (insertCommandsBatch db cmds batchSize).1 := by
  obtain ⟨ha1, hn1⟩ := insert_fresh cmds db hfresh hnodup
  have hpres : ∀ c ∈ cmds, keyPresent (db ++ cmds) c = true :=
    fun c hc => keyPresent_of_mem (List.mem_append_right db hc)
  obtain ⟨ha2, hn2⟩ := insert_present cmds (db ++ cmds) hpres
  simp [insertCommandsBatch_eq, insertCommands, ha1, hn1, ha2, hn2]

/-- C4 witness: two fresh records inserted twice with batch size 1. -/
theorem c4_batch_idempotent_witness :
    (insertCommandsBatch []
        [⟨"/f".data, 1, "ls".data, 0, [], 0⟩, ⟨"/f".data, 2, "pwd".data, 0, [], 0⟩] 1).2.1
      = ([⟨"/f".data, 1, "ls".data, 0, [], 0⟩,
          (⟨"/f".data, 2, "pwd".data, 0, [], 0⟩ : Command)] : List Command).length ∧
    (insertCommandsBatch []
        [⟨"/f".data, 1, "ls".data, 0, [], 0⟩, ⟨"/f".data, 2, "pwd".data, 0, [], 0⟩] 1).2.2 = 0 ∧
    (insertCommandsBatch
        (insertCommandsBatch []
          [⟨"/f".data, 1, "ls".data, 0, [], 0⟩, ⟨"/f".data, 2, "pwd".data, 0, [], 0⟩] 1).1
        [⟨"/f".data, 1, "ls".data, 0, [], 0⟩, ⟨"/f".data, 2, "pwd".data, 0, [], 0⟩] 1).2.1 = 0 ∧
    (insertCommandsBatch
        (insertCommandsBatch []
          [⟨"/f".data, 1, "ls".data, 0, [], 0⟩, ⟨"/f".data, 2, "pwd".data, 0, [], 0⟩] 1).1
        [⟨"/f".data, 1, "ls".data, 0, [], 0⟩, ⟨"/f".data, 2, "pwd".data, 0, [], 0⟩] 1).2.2
      = ([⟨"/f".data, 1, "ls".data, 0, [], 0⟩,
          (⟨"/f".data, 2, "pwd".data, 0, [], 0⟩ : Command)] : List Command).length ∧
    (insertCommandsBatch
        (insertCommandsBatch []
          [⟨"/f".data, 1, "ls".data, 0, [], 0⟩, ⟨"/f".data, 2, "pwd".data, 0, [], 0⟩] 1).1
        [⟨"/f".data, 1, "ls".data, 0, [], 0⟩, ⟨"/f".data, 2, "pwd".data, 0, [], 0⟩] 1).1
      = (insertCommandsBatch []
          [⟨"/f".data, 1, "ls".data, 0, [], 0⟩, ⟨"/f".data, 2, "pwd".data, 0, [], 0⟩] 1).1 :=
  c4_batch_idempotent []
    [⟨"/f".data, 1, "ls".data, 0, [], 0⟩, ⟨"/f".data, 2, "pwd".data, 0, [], 0⟩] 1
    (by decide) (by decide)

/-- One row of the SELECT command, source, timestamp projection used by
SearchCommands. -/
structure SearchResult where
  command : GoStr
  source : GoStr
  timestamp : ℚ
deriving Repr, DecidableEq

/-- SearchOptions of the source; a nonpositive since or until means the
corresponding filter is absent. -/
structure SearchOptions where
  query : GoStr
  limit : Int
  since : ℚ
  untilTs : ℚ
deriving Repr

/-- Go strings.Fields: the maximal whitespace-free substrings. -/
def fields (s : GoStr) : List GoStr :=
  (List.splitOnP isSpaceChar s).filter (fun w => w ≠ [])

/-- Go strings.ReplaceAll for a one-character pattern. -/
def replaceAllC (c : Char) (rep : GoStr) (s : GoStr) : GoStr :=
  (s.map (fun x => if x = c then rep else [x])).flatten

/-- escapeFTS of the source: double quotes and single quotes are doubled,
backslashes are doubled, parentheses and colons are removed. -/
def escapeFTS (s : GoStr) : GoStr :=
  replaceAllC ':' []
    (replaceAllC ')' []
      (replaceAllC '(' []
        (replaceAllC '\\' ['\\', '\\']
          (replaceAllC (Char.ofNat 39) [Char.ofNat 39, Char.ofNat 39]
            (replaceAllC '"' ['"', '"'] s)))))

/-- buildFTSQuery of the source, kept as the list of escaped terms; each
term is sent with a trailing star, represented here by prefix matching in
matchesFTS. -/
def buildFTSQuery (q : GoStr) : List GoStr :=
  (fields (trimSpace q)).map escapeFTS

/-- The fts5 unicode61 tokenizer over the ASCII range used by the schema:
maximal runs of alphanumeric characters, case-folded. -/
def ftsTokens (s : GoStr) : List GoStr :=
  (List.splitOnP (fun c => !c.isAlphanum) (toLowerStr s)).filter (fun w => w ≠ [])

/-- MATCH semantics of the query string built by buildFTSQuery: the
terms combine conjunctively and each term, carrying its trailing star,
prefix-matches some token of the indexed text. -/
def matchesFTS (text : GoStr) (terms : List GoStr) : Bool :=
  terms.all (fun t => (ftsTokens text).any (fun tok => List.isPrefixOf (toLowerStr t) tok))

/-- The WHERE clause of SearchCommands: each filter is active only when
its option is set, and active filters are conjoined. -/
def searchFilter (opts : SearchOptions) (c : Command) : Bool :=
  (decide (opts.query = []) || matchesFTS c.command (buildFTSQuery opts.query)) &&
  (decide (opts.since ≤ 0) || decide (opts.since ≤ c.timestamp)) &&
  (decide (opts.untilTs ≤ 0) || decide (c.timestamp ≤ opts.untilTs))

/-- The ORDER BY timestamp DESC comparison. -/
def tsDescLe (a b : Command) : Bool := decide (b.timestamp ≤ a.timestamp)

/-- Insertion into a list sorted by descending timestamp. -/
def orderedInsert (c : Command) : List Command → List Command
  | [] => [c]
  | x :: xs => if tsDescLe c x then c :: x :: xs else x :: orderedInsert c xs

/-- The ORDER BY timestamp DESC pass; a comparison sort realises the SQL
ordering, with ties left in an engine-chosen order. -/
def sortRows (l : List Command) : List Command := l.foldr orderedInsert []

/-- SearchCommands of the source: WHERE filters, ORDER BY timestamp DESC,
LIMIT (500 when the requested limit is nonpositive), and the projection
to (command, source, timestamp) rows. -/
def searchCommands (db : List Command) (opts : SearchOptions) : List SearchResult :=
  ((sortRows (db.filter (searchFilter opts))).take
      (if opts.limit ≤ 0 then 500 else opts.limit.toNat)).map
    (fun c => ⟨c.command, c.source, c.timestamp⟩)

theorem orderedInsert_mem (c y : Command) : ∀ l : List Command,
    y ∈ orderedInsert c l ↔ y = c ∨ y ∈ l := by
  intro l
  induction l with
  | nil => simp [orderedInsert]
  | cons x xs ih =>
    unfold orderedInsert
    split
    · simp [or_comm, or_assoc, or_left_comm]
    · simp only [List.mem_cons, ih]
      tauto

theorem sortRows_mem (y : Command) : ∀ l : List Command,
    y ∈ sortRows l ↔ y ∈ l := by
  intro l
  induction l with
  | nil => simp [sortRows]
  | cons x xs ih =>
    show y ∈ orderedInsert x (sortRows xs) ↔ _
    rw [orderedInsert_mem, ih]
    simp

theorem pairwise_orderedInsert (c : Command) (l : List Command)
    (h : List.Pairwise (fun a b => tsDescLe a b = true) l) :
    List.Pairwise (fun a b => tsDescLe a b = true) (orderedInsert c l) := by
  induction l with
  | nil => simp [orderedInsert]
  | cons x xs ih =>
    obtain ⟨hx, hxs⟩ := List.pairwise_cons.mp h
    unfold orderedInsert
    split
    · rename_i hcx
      refine List.pairwise_cons.mpr ⟨?_, h⟩
      intro y hy
      rcases List.mem_cons.mp hy with hy | hy
      · rw [hy]; exact hcx
      · have hxy := hx y hy
        unfold tsDescLe at hcx hxy ⊢
        simp only [decide_eq_true_eq] at hcx hxy ⊢
        exact le_trans hxy hcx
    · rename_i hcx
      refine List.pairwise_cons.mpr ⟨?_, ih hxs⟩
      intro y hy
      rcases (orderedInsert_mem c y xs).mp hy with hy | hy
      · rw [hy]
        unfold tsDescLe at hcx ⊢
        simp only [decide_eq_true_eq] at hcx ⊢
        exact le_of_not_le hcx
      · exact hx y hy

theorem pairwise_sortRows (l : List Command) :
    List.Pairwise (fun a b => tsDescLe a b = true) (sortRows l) := by
  induction l with
  | nil => exact List.Pairwise.nil
  | cons x xs ih => exact pairwise_orderedInsert x (sortRows xs) ih

/-- C1 (amended): search results are ordered by descending timestamp
whether or not a free-text query is present; a free-text query only
restricts membership (every returned row comes from a stored record whose
text matches all query terms as token prefixes) and never influences the
order. -/
theorem c1_search_order (db : List Command) (opts : SearchOptions) :
    List.Pairwise (fun a b : SearchResult => b.timestamp ≤ a.timestamp)
      (searchCommands db opts) ∧
    (∀ r ∈ searchCommands db opts, ∃ c ∈ db,
      r.command = c.command ∧ r.source = c.source ∧ r.timestamp = c.timestamp ∧
      (opts.query ≠ [] → matchesFTS c.command (buildFTSQuery opts.query) = true)) := by
  constructor
  · unfold searchCommands
    rw [List.pairwise_map]
    have hp2 : List.Pairwise (fun a b => tsDescLe a b = true)
        ((sortRows (db.filter (searchFilter opts))).take
          (if opts.limit ≤ 0 then 500 else opts.limit.toNat)) :=
      List.Pairwise.sublist (List.take_sublist _ _)
        (pairwise_sortRows (db.filter (searchFilter opts)))
    refine hp2.imp ?_
    intro a b hab
    unfold tsDescLe at hab
    simpa using hab
  · intro r hr
    unfold searchCommands at hr
    rw [List.mem_map] at hr
    obtain ⟨c, hc, hrc⟩ := hr
    have hc2 : c ∈ sortRows (db.filter (searchFilter opts)) := List.take_subset _ _ hc
    have hc3 : c ∈ db.filter (searchFilter opts) := (sortRows_mem c _).mp hc2
    obtain ⟨hcdb, hcf⟩ := List.mem_filter.mp hc3
    refine ⟨c, hcdb, ?_, ?_, ?_, ?_⟩
    · rw [← hrc]
    · rw [← hrc]
    · rw [← hrc]
    · intro hq
      unfold searchFilter at hcf
      simp only [Bool.and_eq_true, Bool.or_eq_true, decide_eq_true_eq] at hcf
      rcases hcf.1.1 with h | h
      · exact absurd h hq
      · exact h

/-- Match quality in the words of the spec, which asks for ranking on
text-index match quality first: the number of index tokens of the record
text matched by some query term. -/
def specMatchQuality (terms : List GoStr) (text : GoStr) : Nat :=
  ((ftsTokens text).filter
    (fun tok => terms.any (fun t => List.isPrefixOf (toLowerStr t) tok))).length

/-- C1 counterexample: for the query "git" over a store holding the older
record "git git" and the newer record "git a", the code returns the newer,
lower-quality match first, ordering a higher-quality match after a lower
one merely because it is older. -/
theorem c1_search_order_cex :
    searchCommands
        [⟨"/f".data, 1, "git git".data, 0, [], 0⟩,
         ⟨"/f".data, 2, "git a".data, 0, [], 0⟩]
        ⟨"git".data, 0, 0, 0⟩
      = [⟨"git a".data, "/f".data, 2⟩, ⟨"git git".data, "/f".data, 1⟩] ∧
    specMatchQuality (buildFTSQuery "git".data) "git a".data
      < specMatchQuality (buildFTSQuery "git".data) "git git".data := by
  constructor
  · decide
  · decide

/-- C1 witness: ordering and membership for the spec scenario store with
query "git". -/
theorem c1_search_order_witness :
    List.Pairwise (fun a b : SearchResult => b.timestamp ≤ a.timestamp)
      (searchCommands
        [⟨"/f".data, 1, "git status".data, 0, [], 0⟩,
         ⟨"/f".data, 2, "git commit".data, 0, [], 0⟩,
         ⟨"/f".data, 3, "echo hi".data, 0, [], 0⟩]
        ⟨"git".data, 0, 0, 0⟩) ∧
    (∃ c ∈ ([⟨"/f".data, 1, "git status".data, 0, [], 0⟩,
         ⟨"/f".data, 2, "git commit".data, 0, [], 0⟩,
         ⟨"/f".data, 3, "echo hi".data, 0, [], 0⟩] : List Command),
      ("git commit".data : GoStr) = c.command ∧ ("/f".data : GoStr) = c.source ∧ (2 : ℚ) = c.timestamp ∧
      (("git".data : GoStr) ≠ [] → matchesFTS c.command (buildFTSQuery "git".data) = true)) := by
  obtain ⟨h1, h2⟩ := c1_search_order
    [⟨"/f".data, 1, "git status".data, 0, [], 0⟩,
     ⟨"/f".data, 2, "git commit".data, 0, [], 0⟩,
     ⟨"/f".data, 3, "echo hi".data, 0, [], 0⟩]
    ⟨"git".data, 0, 0, 0⟩
  refine ⟨h1, ?_⟩
  exact h2 ⟨"git commit".data, "/f".data, 2⟩ (by decide)

/-- Leap-year test of the proleptic Gregorian calendar, as applied by Go
time.Date validation. -/
def isLeap (y : Int) : Bool :=
  (y % 4 == 0 && y % 100 != 0) || y % 400 == 0

/-- Length in days of a month. -/
def daysInMonth (y : Int) (m : Int) : Int :=
  if m = 2 then (if isLeap y then 29 else 28)
  else if m = 4 ∨ m = 6 ∨ m = 9 ∨ m = 11 then 30
  else 31

/-- Days since 1970-01-01 of a civil date (proleptic Gregorian). -/
def daysFromCivil (y m d : Int) : Int :=
  let y2 := if m ≤ 2 then y - 1 else y
  let mm := if m ≤ 2 then m + 9 else m - 3
  365 * y2 + y2.fdiv 4 - y2.fdiv 100 + y2.fdiv 400
    + (153 * mm + 2).fdiv 5 + d - 1 - 719468

/-- Unix seconds of a civil local time under a fixed offset in seconds
east of UTC: the model of the Go time.Location that ParseInLocation
receives. -/
def unixFromCivil (tz y mo d h mi s : Int) : ℚ :=
  ((daysFromCivil y mo d * 86400 + h * 3600 + mi * 60 + s - tz : Int) : ℚ)

/-- Value of a two-digit field. -/
def digit2 (a b : Char) : Int := (((a.toNat - 48) * 10 + (b.toNat - 48) : Nat) : Int)

/-- The "2006-01-02" layout of parseDateTime: exactly ten characters,
zero-padded fields, and the ranges Go time.Parse enforces (month 1..12,
day 1..length of that month). -/
def parseLayoutDate (s : GoStr) : Option (Int × Int × Int) :=
  match s with
  | [a1, a2, a3, a4, s1, b1, b2, s2, c1, c2] =>
    if [a1, a2, a3, a4, b1, b2, c1, c2].all isDigitChar && (s1 == '-') && (s2 == '-') then
      if 1 ≤ digit2 b1 b2 ∧ digit2 b1 b2 ≤ 12 ∧ 1 ≤ digit2 c1 c2 ∧
          digit2 c1 c2 ≤ daysInMonth ((digitsToNat [a1, a2, a3, a4] : Nat) : Int) (digit2 b1 b2) then
        some (((digitsToNat [a1, a2, a3, a4] : Nat) : Int), digit2 b1 b2, digit2 c1 c2)
      else none
    else none
  | _ => none

/-- The "15:04:05" clock layout with the ranges Go time.Parse enforces. -/
def parseClock (s : GoStr) : Option (Int × Int × Int) :=
  match s with
  | [h1, h2, s1, m1, m2, s2, e1, e2] =>
    if [h1, h2, m1, m2, e1, e2].all isDigitChar && (s1 == ':') && (s2 == ':') then
      if digit2 h1 h2 ≤ 23 ∧ digit2 m1 m2 ≤ 59 ∧ digit2 e1 e2 ≤ 59 then
        some (digit2 h1 h2, digit2 m1 m2, digit2 e1 e2)
      else none
    else none
  | _ => none

/-- The "2006-01-02 15:04:05" layout: a date, one space, a clock, and
nothing else. -/
def parseLayoutDateTime (s : GoStr) :
    Option (Int × Int × Int × Int × Int × Int) :=
  match parseLayoutDate (s.take 10), s.drop 10 with
  | some (y, mo, d), ' ' :: rest =>
    (parseClock rest).map (fun t => (y, mo, d, t.1, t.2.1, t.2.2))
  | _, _ => none

/-- parseDateTime of the source: the empty string means no filter and
yields 0; otherwise the full date-time layout is tried first, then the
date-only layout at start of day; both in local time, modelled by the
fixed offset tz. -/
def parseDateTime (tz : Int) (s : GoStr) : Option ℚ :=
  if s = [] then some 0
  else
    match parseLayoutDateTime s with
    | some (y, mo, d, h, mi, se) => some (unixFromCivil tz y mo d h mi se)
    | none =>
      match parseLayoutDate s with
      | some (y, mo, d) => some (unixFromCivil tz y mo d 0 0 0)
      | none => none

theorem parseLayoutDate_length {s : GoStr} {v : Int × Int × Int}
    (h : parseLayoutDate s = some v) : s.length = 10 := by
  unfold parseLayoutDate at h
  split at h
  · rename_i a1 a2 a3 a4 s1 b1 b2 s2 c1 c2
    rfl
  · exact absurd h (by simp)

/-- C6: every returned row respects an active since bound and an active
until bound inclusively; a date-only string parses as start of day in
local time, agreeing with the same date at clock 00:00:00, and a
date-time string is honoured at full granularity. -/
theorem c6_time_bounds (db : List Command) (opts : SearchOptions)
    (tz : Int) (s : GoStr) :
    (∀ r ∈ searchCommands db opts,
      (0 < opts.since → opts.since ≤ r.timestamp) ∧
      (0 < opts.untilTs → r.timestamp ≤ opts.untilTs)) ∧
    (∀ y mo d, parseLayoutDate s = some (y, mo, d) →
      parseDateTime tz s = some (unixFromCivil tz y mo d 0 0 0) ∧
      parseDateTime tz (s ++ ' ' :: "00:00:00".data)
        = some (unixFromCivil tz y mo d 0 0 0)) ∧
    (∀ y mo d h mi se, parseLayoutDateTime s = some (y, mo, d, h, mi, se) →
      parseDateTime tz s = some (unixFromCivil tz y mo d h mi se)) := by
  refine ⟨?_, ?_, ?_⟩
  · intro r hr
    unfold searchCommands at hr
    rw [List.mem_map] at hr
    obtain ⟨c, hc, hrc⟩ := hr
    have hc3 : c ∈ db.filter (searchFilter opts) :=
      (sortRows_mem c _).mp (List.take_subset _ _ hc)
    have hcf := (List.mem_filter.mp hc3).2
    unfold searchFilter at hcf
    simp only [Bool.and_eq_true, Bool.or_eq_true, decide_eq_true_eq] at hcf
    have hts : r.timestamp = c.timestamp := by rw [← hrc]
    constructor
    · intro hs
      rcases hcf.1.2 with h | h
      · linarith
      · rw [hts]; exact h
    · intro hu
      rcases hcf.2 with h | h
      · linarith
      · rw [hts]; exact h
  · intro y mo d hd
    have hlen : s.length = 10 := parseLayoutDate_length hd
    have hne : s ≠ [] := by
      intro h
      rw [h] at hlen
      simp at hlen
    have hdt : parseLayoutDateTime s = none := by
      unfold parseLayoutDateTime
      rw [List.take_of_length_le (by omega), List.drop_eq_nil_of_le (by omega), hd]
    constructor
    · unfold parseDateTime
      rw [if_neg hne, hdt, hd]
    · have htake : (s ++ ' ' :: "00:00:00".data).take 10 = s := by
        rw [← hlen, List.take_left]
      have hdrop : (s ++ ' ' :: "00:00:00".data).drop 10 = ' ' :: "00:00:00".data := by
        rw [← hlen, List.drop_left]
      have hfull : parseLayoutDateTime (s ++ ' ' :: "00:00:00".data)
          = some (y, mo, d, 0, 0, 0) := by
        unfold parseLayoutDateTime
        rw [htake, hdrop, hd]
        rfl
      unfold parseDateTime
      rw [if_neg (by simp), hfull]
  · intro y mo d h mi se hdt
    have hne : s ≠ [] := by
      intro h0
      rw [h0, show parseLayoutDateTime ([] : GoStr) = none from rfl] at hdt
      exact Option.noConfusion hdt
    unfold parseDateTime
    rw [if_neg hne, hdt]

/-- C6 witness: a record at second 5 returned under since 1 and until 10,
the date-only string 2024-01-01 at offset 0, and the date-time string
2024-01-01 12:30:45 at offset 0. -/
theorem c6_time_bounds_witness :
    ((0 < (1 : ℚ) → (1 : ℚ) ≤ (⟨"ls".data, "/f".data, 5⟩ : SearchResult).timestamp) ∧
     (0 < (10 : ℚ) → (⟨"ls".data, "/f".data, 5⟩ : SearchResult).timestamp ≤ (10 : ℚ))) ∧
    (parseDateTime 0 "2024-01-01".data = some (unixFromCivil 0 2024 1 1 0 0 0) ∧
     parseDateTime 0 ("2024-01-01".data ++ ' ' :: "00:00:00".data)
       = some (unixFromCivil 0 2024 1 1 0 0 0)) ∧
    parseDateTime 0 "2024-01-01 12:30:45".data
      = some (unixFromCivil 0 2024 1 1 12 30 45) := by
  obtain ⟨p1, p2, -⟩ := c6_time_bounds [⟨"/f".data, 5, "ls".data, 0, [], 0⟩]
    ⟨[], 0, 1, 10⟩ 0 "2024-01-01".data
  obtain ⟨-, -, p3⟩ := c6_time_bounds [⟨"/f".data, 5, "ls".data, 0, [], 0⟩]
    ⟨[], 0, 1, 10⟩ 0 "2024-01-01 12:30:45".data
  exact ⟨p1 ⟨"ls".data, "/f".data, 5⟩ (by decide), p2 2024 1 1 (by decide),
    p3 2024 1 1 12 30 45 (by decide)⟩

/-- One row of the wizard_cache table. -/
structure WizardCacheEntry where
  queryNormalized : GoStr
  queryOriginal : GoStr
  command : GoStr
  runCount : Int
  lastUsed : ℚ
  createdAt : ℚ
deriving Repr, DecidableEq

/-- A default cache row, used with List.getD. -/
def entry0 : WizardCacheEntry := ⟨[], [], [], 0, 0, 0⟩

/-- NormalizeQuery of the source: trim whitespace, then lower-case. -/
def normalizeQuery (q : GoStr) : GoStr := toLowerStr (trimSpace q)

/-- The INSERT .. ON CONFLICT(query_normalized) DO UPDATE statement over
the table rows: the conflicting row (unique, by the primary key) gets the
new command, an incremented run_count and the new last_used, while
query_original and created_at keep their stored values; without a
conflict a fresh row with run_count 1 is appended. -/
def upsertGo (n q cmd : GoStr) (now : ℚ) : List WizardCacheEntry → List WizardCacheEntry
  | [] => [⟨n, q, cmd, 1, now, now⟩]
  | e :: rest =>
    if e.queryNormalized = n then
      { e with command := cmd, runCount := e.runCount + 1, lastUsed := now } :: rest
    else e :: upsertGo n q cmd now rest

/-- SetWizardCache of the source; the clock value is passed explicitly
(the source reads time.Now for it). -/
def setWizardCache (cache : List WizardCacheEntry) (q cmd : GoStr) (now : ℚ) :
    List WizardCacheEntry :=
  upsertGo (normalizeQuery q) q cmd now cache

/-- GetWizardCache of the source: the row keyed by the normalized
query. -/
def getWizardCache (cache : List WizardCacheEntry) (q : GoStr) :
    Option WizardCacheEntry :=
  cache.find? (fun e => decide (e.queryNormalized = normalizeQuery q))

theorem upsertGo_fresh (n q cmd : GoStr) (now : ℚ) :
    ∀ cache : List WizardCacheEntry,
    (∀ e ∈ cache, e.queryNormalized ≠ n) →
    upsertGo n q cmd now cache = cache ++ [⟨n, q, cmd, 1, now, now⟩] := by
  intro cache
  induction cache with
  | nil => intro _; rfl
  | cons e rest ih =>
    intro hfresh
    unfold upsertGo
    rw [if_neg (hfresh e (List.mem_cons_self e rest))]
    rw [ih (fun x hx => hfresh x (List.mem_cons_of_mem _ hx))]
    rfl

theorem upsertGo_length_found (n q cmd : GoStr) (now : ℚ) :
    ∀ (cache : List WizardCacheEntry) (i : Nat), i < cache.length →
    (cache.getD i entry0).queryNormalized = n →
    (upsertGo n q cmd now cache).length = cache.length := by
  intro cache
  induction cache with
  | nil => intro i hi _; simp at hi
  | cons e rest ih =>
    intro i hi hkey
    unfold upsertGo
    split
    · simp
    · rename_i hne
      cases i with
      | zero => exact absurd hkey hne
      | succ j =>
        have hj : j < rest.length := by simpa using hi
        simp only [List.length_cons]
        rw [ih j hj (by simpa using hkey)]

theorem upsertGo_found (n q cmd : GoStr) (now : ℚ) :
    ∀ (cache : List WizardCacheEntry) (i : Nat), i < cache.length →
    (cache.getD i entry0).queryNormalized = n →
    (∀ j, j < i → (cache.getD j entry0).queryNormalized ≠ n) →
    (upsertGo n q cmd now cache).getD i entry0
        = { cache.getD i entry0 with
            command := cmd,
            runCount := (cache.getD i entry0).runCount + 1,
            lastUsed := now } ∧
    (∀ j, j ≠ i → (upsertGo n q cmd now cache).getD j entry0 = cache.getD j entry0) := by
  intro cache
  induction cache with
  | nil => intro i hi _ _; simp at hi
  | cons e rest ih =>
    intro i hi hkey hbefore
    cases i with
    | zero =>
      unfold upsertGo
      rw [if_pos (by simpa using hkey)]
      constructor
      · simp
      · intro j hj
        cases j with
        | zero => exact absurd rfl hj
        | succ k => simp
    | succ m =>
      have hm : m < rest.length := by simpa using hi
      have hne : ¬ e.queryNormalized = n := by
        have := hbefore 0 (Nat.succ_pos m)
        simpa using this
      unfold upsertGo
      rw [if_neg hne]
      have hbefore2 : ∀ j, j < m → (rest.getD j entry0).queryNormalized ≠ n := by
        intro j hj
        have := hbefore (j + 1) (by omega)
        simpa using this
      obtain ⟨h1, h2⟩ := ih m hm (by simpa using hkey) hbefore2
      constructor
      · simpa using h1
      · intro j hj
        cases j with
        | zero => simp
        | succ k =>
          have : k ≠ m := by omega
          simpa using h2 k this

theorem upsertGo_keys_eq (n q cmd : GoStr) (now : ℚ) :
    ∀ cache : List WizardCacheEntry,
    (∃ e ∈ cache, e.queryNormalized = n) →
    (upsertGo n q cmd now cache).map WizardCacheEntry.queryNormalized
      = cache.map WizardCacheEntry.queryNormalized := by
  intro cache
  induction cache with
  | nil =>
    rintro ⟨e, he, -⟩
    simp at he
  | cons e rest ih =>
    rintro ⟨x, hx, hxn⟩
    unfold upsertGo
    split
    · simp
    · rename_i hne
      have hxrest : x ∈ rest := by
        rcases List.mem_cons.mp hx with h | h
        · rw [h] at hxn
          exact absurd hxn hne
        · exact h
      simp only [List.map_cons]
      rw [ih ⟨x, hxrest, hxn⟩]

theorem upsertGo_keys (n q cmd : GoStr) (now : ℚ)
    (cache : List WizardCacheEntry)
    (hnodup : (cache.map WizardCacheEntry.queryNormalized).Nodup) :
    ((upsertGo n q cmd now cache).map WizardCacheEntry.queryNormalized).Nodup := by
  by_cases hmem : ∃ e ∈ cache, e.queryNormalized = n
  · rw [upsertGo_keys_eq n q cmd now cache hmem]
    exact hnodup
  · push_neg at hmem
    rw [upsertGo_fresh n q cmd now cache hmem]
    have hnot : n ∉ cache.map WizardCacheEntry.queryNormalized := by
      rw [List.mem_map]
      rintro ⟨x, hx, hxn⟩
      exact hmem x hx hxn
    simp only [List.map_append, List.map_cons, List.map_nil]
    rw [List.nodup_append]
    refine ⟨hnodup, List.nodup_singleton _, ?_⟩
    intro a ha hb
    simp only [List.mem_singleton] at hb
    rw [hb] at ha
    exact hnot ha

theorem upsertGo_preserves (n q cmd : GoStr) (now : ℚ) :
    ∀ (cache : List WizardCacheEntry) (i : Nat), i < cache.length →
    ((upsertGo n q cmd now cache).getD i entry0).queryOriginal
      = (cache.getD i entry0).queryOriginal ∧
    ((upsertGo n q cmd now cache).getD i entry0).createdAt
      = (cache.getD i entry0).createdAt := by
  intro cache
  induction cache with
  | nil => intro i hi; simp at hi
  | cons e rest ih =>
    intro i hi
    unfold upsertGo
    split
    · cases i with
      | zero => exact ⟨rfl, rfl⟩
      | succ j => exact ⟨rfl, rfl⟩
    · cases i with
      | zero => exact ⟨rfl, rfl⟩
      | succ j =>
        have hj : j < rest.length := by simpa using hi
        simpa using ih j hj

/-- C5: record(query, command) upserts under the normalized key (trimmed,
lower-cased): when the key exists, the single matching row gets
run_count + 1, the new command and the new last_used, and no row is added
or removed; otherwise exactly one new row with run_count 1 is appended.
Key uniqueness is preserved, so at most one row per normalized query ever
exists. -/
theorem c5_cache_upsert (cache : List WizardCacheEntry) (q cmd : GoStr) (now : ℚ) :
    ((∀ e ∈ cache, e.queryNormalized ≠ normalizeQuery q) →
      setWizardCache cache q cmd now
        = cache ++ [⟨normalizeQuery q, q, cmd, 1, now, now⟩]) ∧
    (∀ i, i < cache.length →
      (cache.getD i entry0).queryNormalized = normalizeQuery q →
      (∀ j, j < i → (cache.getD j entry0).queryNormalized ≠ normalizeQuery q) →
      (setWizardCache cache q cmd now).length = cache.length ∧
      (setWizardCache cache q cmd now).getD i entry0
        = { cache.getD i entry0 with
            command := cmd,
            runCount := (cache.getD i entry0).runCount + 1,
            lastUsed := now } ∧
      (∀ j, j ≠ i →
        (setWizardCache cache q cmd now).getD j entry0 = cache.getD j entry0)) ∧
    ((cache.map WizardCacheEntry.queryNormalized).Nodup →
      ((setWizardCache cache q cmd now).map WizardCacheEntry.queryNormalized).Nodup) := by
  refine ⟨fun h => upsertGo_fresh _ q cmd now cache h, ?_,
    fun h => upsertGo_keys _ q cmd now cache h⟩
  intro i hi hkey hbefore
  obtain ⟨h1, h2⟩ := upsertGo_found _ q cmd now cache i hi hkey hbefore
  exact ⟨upsertGo_length_found _ q cmd now cache i hi hkey, h1, h2⟩

/-- C5 witness: creating an entry in an empty cache, then upserting an
existing key with different literal text. -/
theorem c5_cache_upsert_witness :
    (setWizardCache [] "Git Status".data "git status -sb".data 3
      = [⟨normalizeQuery "Git Status".data, "Git Status".data,
          "git status -sb".data, 1, 3, 3⟩]) ∧
    ((setWizardCache [⟨"git status".data, "Git Status".data, "c1".data, 1, 1, 1⟩]
        "GIT STATUS".data "c2".data 2).length
      = ([⟨"git status".data, "Git Status".data, "c1".data, 1, 1, 1⟩]
          : List WizardCacheEntry).length) ∧
    ((setWizardCache [⟨"git status".data, "Git Status".data, "c1".data, 1, 1, 1⟩]
        "GIT STATUS".data "c2".data 2).getD 0 entry0
      = { (([⟨"git status".data, "Git Status".data, "c1".data, 1, 1, 1⟩]
            : List WizardCacheEntry).getD 0 entry0) with
          command := "c2".data,
          runCount := (([⟨"git status".data, "Git Status".data, "c1".data, 1, 1, 1⟩]
            : List WizardCacheEntry).getD 0 entry0).runCount + 1,
          lastUsed := 2 }) := by
  obtain ⟨p1, -, -⟩ :=
    c5_cache_upsert [] "Git Status".data "git status -sb".data 3
  obtain ⟨-, p2, -⟩ :=
    c5_cache_upsert [⟨"git status".data, "Git Status".data, "c1".data, 1, 1, 1⟩]
      "GIT STATUS".data "c2".data 2
  obtain ⟨w1, w2, -⟩ := p2 0 (by decide) (by decide)
    (fun j hj => absurd hj (Nat.not_lt_zero j))
  exact ⟨p1 (fun e he => absurd he (List.not_mem_nil e)), w1, w2⟩

/-- C7 (amended): original_query holds the literal text of the call that
created the entry; a later record call on the same normalized key leaves
original_query (and created_at) unchanged, updating only command,
run_count and last_used. -/
theorem c7_original_query (cache : List WizardCacheEntry) (q cmd : GoStr) (now : ℚ) :
    (∀ i, i < cache.length →
      ((setWizardCache cache q cmd now).getD i entry0).queryOriginal
        = (cache.getD i entry0).queryOriginal ∧
      ((setWizardCache cache q cmd now).getD i entry0).createdAt
        = (cache.getD i entry0).createdAt) ∧
    ((∀ e ∈ cache, e.queryNormalized ≠ normalizeQuery q) →
      (setWizardCache cache q cmd now).getD cache.length entry0
        = ⟨normalizeQuery q, q, cmd, 1, now, now⟩) := by
  constructor
  · intro i hi
    exact upsertGo_preserves _ q cmd now cache i hi
  · intro hfresh
    show (upsertGo (normalizeQuery q) q cmd now cache).getD cache.length entry0 = _
    rw [upsertGo_fresh _ q cmd now cache hfresh]
    rw [List.getD_eq_getElem _ _ (by simp)]
    simp

/-- C7 witness: an upsert on an existing key keeps the stored
original_query and created_at; a fresh key stores the literal query. -/
theorem c7_original_query_witness :
    (((setWizardCache [⟨"k".data, "Orig".data, "c".data, 1, 1, 1⟩]
        "K".data "c2".data 2).getD 0 entry0).queryOriginal
      = (([⟨"k".data, "Orig".data, "c".data, 1, 1, 1⟩]
          : List WizardCacheEntry).getD 0 entry0).queryOriginal ∧
     ((setWizardCache [⟨"k".data, "Orig".data, "c".data, 1, 1, 1⟩]
        "K".data "c2".data 2).getD 0 entry0).createdAt
      = (([⟨"k".data, "Orig".data, "c".data, 1, 1, 1⟩]
          : List WizardCacheEntry).getD 0 entry0).createdAt) ∧
    (setWizardCache [] "New Query".data "cmd".data 7).getD 0 entry0
      = ⟨normalizeQuery "New Query".data, "New Query".data, "cmd".data, 1, 7, 7⟩ := by
  obtain ⟨p1, -⟩ := c7_original_query
    [⟨"k".data, "Orig".data, "c".data, 1, 1, 1⟩] "K".data "c2".data 2
  obtain ⟨-, p2⟩ := c7_original_query [] "New Query".data "cmd".data 7
  exact ⟨p1 0 (by decide), p2 (fun e he => absurd he (List.not_mem_nil e))⟩

/-- C7 counterexample: after record("Git Status", c1) and then
record("GIT STATUS", c2), the entry under the shared normalized key still
has original_query "Git Status", not the literal text of the latest
call. -/
theorem c7_original_query_cex :
    getWizardCache
        (setWizardCache (setWizardCache [] "Git Status".data "c1".data 1)
          "GIT STATUS".data "c2".data 2)
        "GIT STATUS".data
      = some ⟨"git status".data, "Git Status".data, "c2".data, 2, 2, 1⟩ ∧
    ("Git Status".data : GoStr) ≠ "GIT STATUS".data := by
  constructor
  · decide
  · decide

/-- The character class of the keyword regular expression: ASCII letters
and digits, underscore, hyphen and dot. -/
def isWordChar (c : Char) : Bool :=
  c.isAlphanum || c == '_' || c == '-' || c == '.'

theorem length_dropWhile_le (p : Char → Bool) :
    ∀ l : GoStr, (l.dropWhile p).length ≤ l.length := by
  intro l
  induction l with
  | nil => simp
  | cons a t ih =>
    rw [List.dropWhile_cons]
    split
    · exact le_trans ih (Nat.le_succ _)
    · simp

/-- FindAllString of the keyword regular expression: the maximal runs of
word characters, in order. -/
def findRuns (p : Char → Bool) : GoStr → List GoStr
  | [] => []
  | c :: rest =>
    if p c then (c :: rest.takeWhile p) :: findRuns p (rest.dropWhile p)
    else findRuns p rest
termination_by s => s.length
decreasing_by
  · have := length_dropWhile_le p rest
    simp only [List.length_cons]
    omega
  · simp

/-- The stop-word set of extractKeywords, transcribed from the source. -/
def stopWords : List GoStr :=
  (["a", "an", "the", "is", "are",
    "was", "were", "be", "been", "being",
    "have", "has", "had", "do", "does",
    "did", "will", "would", "could", "should",
    "may", "might", "must", "shall",
    "i", "me", "my", "we", "our",
    "you", "your", "he", "she", "it",
    "they", "them", "their",
    "this", "that", "these", "those",
    "what", "which", "who", "whom",
    "how", "when", "where", "why",
    "all", "any", "both", "each",
    "few", "more", "most", "some",
    "show", "get", "find", "list", "display",
    "give", "tell", "can", "please",
    "want", "need", "like",
    "to", "of", "in", "for", "on",
    "with", "at", "by", "from", "as",
    "into", "through", "during", "before",
    "after", "above", "below", "between",
    "and", "or", "but", "not"] : List String).map String.data

/-- The word loop of extractKeywords: skip short words, stop words and
seen words; otherwise mark seen and keep, preserving order. -/
def extractGo (seen : List GoStr) : List GoStr → List GoStr
  | [] => []
  | w :: rest =>
    if w.length < 2 then extractGo seen rest
    else if decide (w ∈ stopWords) then extractGo seen rest
    else if decide (w ∈ seen) then extractGo seen rest
    else w :: extractGo (w :: seen) rest

/-- extractKeywords of the source: lower-case, find the word runs, then
filter and de-duplicate in one pass. -/
def extractKeywords (q : GoStr) : List GoStr :=
  extractGo [] (findRuns isWordChar (toLowerStr q))

/-- Tokenization in the words of the spec: split the lower-cased input on
runs of characters outside the word class (empty pieces between adjacent
separators are no tokens). -/
def specTokens (s : GoStr) : List GoStr :=
  (List.splitOnP (fun c => !isWordChar c) s).filter (fun w => decide (w ≠ []))

/-- De-duplication in the words of the spec: keep the first occurrence of
every token, preserving order. -/
def specDedup (l : List GoStr) : List GoStr :=
  l.foldl (fun a w => if w ∈ a then a else a ++ [w]) []

/-- The keyword list in the words of the spec: tokens of length at least
two that are not stop words, de-duplicated with first occurrences kept in
order. -/
def specKeywords (q : GoStr) : List GoStr :=
  specDedup ((specTokens (toLowerStr q)).filter
    (fun w => decide (2 ≤ w.length) && !decide (w ∈ stopWords)))

theorem dropWhile_head_false (p : Char → Bool) :
    ∀ (l : GoStr) (d : Char) (t : GoStr), l.dropWhile p = d :: t → p d = false := by
  intro l
  induction l with
  | nil => intro d t h; exact absurd h (by simp)
  | cons a rest ih =>
    intro d t h
    rw [List.dropWhile_cons] at h
    split at h
    · exact ih d t h
    · rename_i hpa
      obtain ⟨rfl, -⟩ := List.cons.inj h
      simpa using hpa

/-- The first segment of splitOnP is the run up to the first separator,
and the remaining segments restart after that separator. -/
theorem splitOnP_structure (q : Char → Bool) :
    ∀ s : GoStr, List.splitOnP q s
      = s.takeWhile (fun c => !q c) ::
        (match s.dropWhile (fun c => !q c) with
         | [] => []
         | _ :: t => List.splitOnP q t) := by
  intro s
  induction s with
  | nil => simp
  | cons c rest ih =>
    rw [List.splitOnP_cons]
    by_cases hq : q c = true
    · rw [if_pos hq, List.takeWhile_cons, List.dropWhile_cons]
      simp [hq]
    · have hq2 : q c = false := by simpa using hq
      rw [if_neg (by simp [hq2]), ih, List.takeWhile_cons, List.dropWhile_cons]
      simp [hq2]

theorem findRuns_eq_aux (p : Char → Bool) :
    ∀ (n : Nat) (s : GoStr), s.length ≤ n →
    findRuns p s
      = (List.splitOnP (fun c => !p c) s).filter (fun w => decide (w ≠ [])) := by
  intro n
  induction n with
  | zero =>
    intro s hs
    have : s = [] := List.eq_nil_of_length_eq_zero (Nat.le_zero.mp hs)
    rw [this]
    simp [findRuns]
  | succ n ih =>
    intro s hs
    cases s with
    | nil => simp [findRuns]
    | cons c rest =>
      have hq : (fun x : Char => !(!p x)) = p := funext fun x => Bool.not_not (p x)
      rw [splitOnP_structure, hq, List.takeWhile_cons, List.dropWhile_cons]
      by_cases hp : p c = true
      · rw [if_pos hp, if_pos hp, List.filter_cons, if_pos (by simp)]
        unfold findRuns
        rw [if_pos hp]
        refine congrArg (List.cons _) ?_
        cases hdrop : rest.dropWhile p with
        | nil =>
          simp [findRuns]
        | cons d t =>
          have hd : p d = false := dropWhile_head_false p rest d t hdrop
          have hlt : t.length ≤ n := by
            have h1 := length_dropWhile_le p rest
            rw [hdrop] at h1
            simp only [List.length_cons] at h1 hs
            omega
          show findRuns p (d :: t)
            = (List.splitOnP (fun c => !p c) t).filter (fun w => decide (w ≠ []))
          unfold findRuns
          rw [if_neg (by simp [hd])]
          exact ih t hlt
      · rw [if_neg hp, if_neg hp, List.filter_cons, if_neg (by simp)]
        show findRuns p (c :: rest)
          = (List.splitOnP (fun c => !p c) rest).filter (fun w => decide (w ≠ []))
        unfold findRuns
        rw [if_neg hp]
        refine (ih rest ?_)
        simp only [List.length_cons] at hs
        omega

theorem findRuns_eq (p : Char → Bool) (s : GoStr) :
    findRuns p s
      = (List.splitOnP (fun c => !p c) s).filter (fun w => decide (w ≠ [])) :=
  findRuns_eq_aux p s.length s (le_refl _)

/-- De-duplication with an explicit seen set. -/
def dedupSeen (seen : List GoStr) : List GoStr → List GoStr
  | [] => []
  | w :: rest =>
    if w ∈ seen then dedupSeen seen rest else w :: dedupSeen (w :: seen) rest

theorem dedupSeen_congr : ∀ (l : List GoStr) (s1 s2 : List GoStr),
    (∀ x : GoStr, x ∈ s1 ↔ x ∈ s2) → dedupSeen s1 l = dedupSeen s2 l := by
  intro l
  induction l with
  | nil => intro s1 s2 _; rfl
  | cons w rest ih =>
    intro s1 s2 hiff
    unfold dedupSeen
    by_cases hw : w ∈ s1
    · rw [if_pos hw, if_pos ((hiff w).mp hw), ih s1 s2 hiff]
    · rw [if_neg hw, if_neg (fun h2 => hw ((hiff w).mpr h2))]
      refine congrArg _ ?_
      refine ih (w :: s1) (w :: s2) ?_
      intro x
      simp only [List.mem_cons]
      rw [hiff x]

theorem foldl_dedup : ∀ (l acc : List GoStr),
    l.foldl (fun a w => if w ∈ a then a else a ++ [w]) acc
      = acc ++ dedupSeen acc l := by
  intro l
  induction l with
  | nil => intro acc; simp [dedupSeen]
  | cons w rest ih =>
    intro acc
    rw [List.foldl_cons]
    unfold dedupSeen
    by_cases hw : w ∈ acc
    · rw [if_pos hw, if_pos hw, ih]
    · rw [if_neg hw, if_neg hw, ih (acc ++ [w])]
      rw [dedupSeen_congr rest (acc ++ [w]) (w :: acc)
        (by intro x; simp [List.mem_append, List.mem_cons, or_comm])]
      simp

theorem extractGo_eq : ∀ (l : List GoStr) (seen : List GoStr),
    extractGo seen l
      = dedupSeen seen (l.filter
          (fun w => decide (2 ≤ w.length) && !decide (w ∈ stopWords))) := by
  intro l
  induction l with
  | nil => intro seen; rfl
  | cons w rest ih =>
    intro seen
    rw [List.filter_cons]
    by_cases hlen : w.length < 2
    · rw [if_neg (by simp; omega)]
      unfold extractGo
      rw [if_pos hlen]
      exact ih seen
    · by_cases hstop : w ∈ stopWords
      · rw [if_neg (by simp [hstop])]
        unfold extractGo
        rw [if_neg hlen, if_pos (by simp [hstop])]
        exact ih seen
      · rw [if_pos (by simp [hstop]; omega)]
        unfold extractGo
        rw [if_neg hlen, if_neg (by simp [hstop])]
        unfold dedupSeen
        by_cases hseen : w ∈ seen
        · rw [if_pos (by simp [hseen]), if_pos hseen]
          exact ih seen
        · rw [if_neg (by simp [hseen]), if_neg hseen]
          exact congrArg _ (ih (w :: seen))

/-- C8: extractKeywords returns exactly the lowercase tokens obtained by
splitting the lower-cased input on runs of characters outside the class
of letters, digits, underscore, hyphen and dot, keeping tokens of length
at least two that are not stop words, de-duplicated with first
occurrences kept in order. -/
theorem c8_extract_keywords (q : GoStr) : extractKeywords q = specKeywords q := by
  unfold extractKeywords specKeywords specDedup specTokens
  rw [findRuns_eq, extractGo_eq, foldl_dedup]
  rfl

end Zist